import Mathlib

/-!
Verification of the `closure!` macro (src/src/lib.rs).

The macro is a `macro_rules!` token-rewriting facility.  We embed the token
language shallowly: a `Tok` is one Rust token tree element as the macro
distinguishes them.  Rust's `$x:ident` fragment matches identifiers *and*
keywords, so the keyword tokens `move`/`mut`/`ref`/`let` are modelled
separately from plain identifiers, and `identFrag` reflects the fragment
matcher.  Keywords the macro never mentions behave exactly like plain
identifiers with respect to it and are modelled as `Tok.ident`.

The six specifier arms of `closure!` (lines 253-276), the separator arm
(line 277), the closure fallback (lines 281-284) and the entry point
(lines 286-288), as well as `__extract_last_ident!` (lines 293-298) and
`__assert_closure!` (lines 303-312), are each translated below; the
recursive `@inner` consumption is `expandInner`.
-/

/-- Keyword tokens the macro distinguishes (plus `let`, which it emits). -/
inductive Kw
  | kmove
  | kmut
  | kref
  | klet
deriving DecidableEq

/-- Punctuation tokens relevant to the macro's input and output. -/
inductive Punct
  | comma
  | dot
  | pipe
  | orOr
  | eq
  | semi
  | braceL
  | braceR
  | amp
  | parenL
  | parenR
deriving DecidableEq

/-- One Rust token as the macro distinguishes them.  `other` stands for any
token tree the macro treats opaquely (literals, groups, ...). -/
inductive Tok
  | kw (k : Kw)
  | ident (s : String)
  | punct (p : Punct)
  | other (s : String)
deriving DecidableEq

/-- Shorthand for the comma token. -/
@[match_pattern] def Tok.comma : Tok := .punct .comma

/-- Shorthand for the dot token. -/
@[match_pattern] def Tok.dot : Tok := .punct .dot

/-- Shorthand for the single vertical bar token. -/
@[match_pattern] def Tok.pipe : Tok := .punct .pipe

/-- Shorthand for the `||` token (Rust lexes two adjacent bars as one token). -/
@[match_pattern] def Tok.orOr : Tok := .punct .orOr

/-- Rust's `$x:ident` fragment matcher: it accepts identifiers and keywords,
returning the matched name. -/
def identFrag : Tok → Option String
  | .kw .kmove => some "move"
  | .kw .kmut => some "mut"
  | .kw .kref => some "ref"
  | .kw .klet => some "let"
  | .ident s => some s
  | _ => none

/-- Tokenization of a name: the keywords the model distinguishes become
keyword tokens, anything else is a plain identifier (mirroring Rust lexing). -/
def identTok (s : String) : Tok :=
  if s = "move" then .kw .kmove
  else if s = "mut" then .kw .kmut
  else if s = "ref" then .kw .kref
  else if s = "let" then .kw .klet
  else .ident s

/-- Token sequence `.seg₁.seg₂...` continuing a dotted path. -/
def tailToks : List String → List Tok
  | [] => []
  | x :: xs => .dot :: identTok x :: tailToks xs

/-- Token sequence of a dotted path `s.x₁.x₂...` with head segment `s`. -/
def pathToks (s : String) (rest : List String) : List Tok :=
  identTok s :: tailToks rest

/-- Token sequence of a possibly empty list of dotted segments. -/
def segsToks : List String → List Tok
  | [] => []
  | s :: rest => pathToks s rest

/-- The right-hand side of an emitted `let` binding, per specifier variant:
`path`, `&path`, `&mut path`, or `path.method()` (lines 254, 262, 266, 270). -/
inductive Rhs
  | path (segs : List String)
  | refOf (segs : List String)
  | refMutOf (segs : List String)
  | methodCall (segs : List String) (m : String)
deriving DecidableEq

/-- The dotted path a right-hand side reads from. -/
def rhsSegs : Rhs → List String
  | .path segs => segs
  | .refOf segs => segs
  | .refMutOf segs => segs
  | .methodCall segs _ => segs

/-- One emitted `let` binding: mutability of the pattern, bound name, and
right-hand side. -/
structure Binding where
  isMut : Bool
  name : String
  rhs : Rhs
deriving DecidableEq

/-- `__extract_last_ident!` (lines 293-298): recurse over the dotted path,
ignoring all but the last segment.  The `mut` marker of arms 2 and 4 is
threaded through unchanged and surfaces as `Binding.isMut` at the call
sites inside `closure!`. -/
def extractLastIdent : String → List String → String
  | s, [] => s
  | _, s2 :: rest => extractLastIdent s2 rest

/-- Matcher for `$($ids:ident).+` continuing after the first segment: consume
`.ident` pairs as long as they are present (the follow token of every use
site is a comma or end of input, so greedy consumption coincides with the
macro matcher's nondeterministic semantics). -/
def parsePathRest (ts : List Tok) : List String × List Tok :=
  match ts with
  | .dot :: t :: rest =>
    match identFrag t with
    | some s => (s :: (parsePathRest rest).1, (parsePathRest rest).2)
    | none => ([], .dot :: t :: rest)
  | _ => ([], ts)

/-- Matcher for `$($ids:ident).+`: at least one identifier, dot-separated. -/
def parsePath : List Tok → Option (List String × List Tok)
  | t :: rest =>
    match identFrag t with
    | some s => some (s :: (parsePathRest rest).1, (parsePathRest rest).2)
    | none => none
  | [] => none

/-- Matcher for `$($ids:ident).+ ,` — a dotted path followed by the literal
comma every specifier arm requires; yields head segment, remaining segments
and the tokens after the comma. -/
def afterPath (ts : List Tok) : Option (String × List String × List Tok) :=
  match parsePath ts with
  | some (s :: segs, .comma :: tail) => some (s, segs, tail)
  | _ => none

/-- Arm 1 of `closure!` (line 253): `move $($ids).+ ,` emits
`let <last> = <path>;`. -/
def armMove : List Tok → Option (Binding × List Tok)
  | .kw .kmove :: rest =>
    match afterPath rest with
    | some (s, segs, tail) =>
      some (⟨false, extractLastIdent s segs, .path (s :: segs)⟩, tail)
    | none => none
  | _ => none

/-- Arm 2 of `closure!` (line 257): `move mut $($ids).+ ,` emits
`let mut <last> = <path>;`. -/
def armMoveMut : List Tok → Option (Binding × List Tok)
  | .kw .kmove :: .kw .kmut :: rest =>
    match afterPath rest with
    | some (s, segs, tail) =>
      some (⟨true, extractLastIdent s segs, .path (s :: segs)⟩, tail)
    | none => none
  | _ => none

/-- Arm 3 of `closure!` (line 261): `ref $($ids).+ ,` emits
`let <last> = & <path>;`. -/
def armRef : List Tok → Option (Binding × List Tok)
  | .kw .kref :: rest =>
    match afterPath rest with
    | some (s, segs, tail) =>
      some (⟨false, extractLastIdent s segs, .refOf (s :: segs)⟩, tail)
    | none => none
  | _ => none

/-- Arm 4 of `closure!` (line 265): `ref mut $($ids).+ ,` emits
`let <last> = &mut <path>;` (the pattern itself is not `mut`). -/
def armRefMut : List Tok → Option (Binding × List Tok)
  | .kw .kref :: .kw .kmut :: rest =>
    match afterPath rest with
    | some (s, segs, tail) =>
      some (⟨false, extractLastIdent s segs, .refMutOf (s :: segs)⟩, tail)
    | none => none
  | _ => none

/-- Arm 5 of `closure!` (line 269): `$fn:ident $($ids).+ ,` emits
`let <last> = <path>.$fn();`. -/
def armFn : List Tok → Option (Binding × List Tok)
  | t :: rest =>
    match identFrag t with
    | some fn =>
      match afterPath rest with
      | some (s, segs, tail) =>
        some (⟨false, extractLastIdent s segs, .methodCall (s :: segs) fn⟩, tail)
      | none => none
    | none => none
  | [] => none

/-- Arm 6 of `closure!` (line 273): `$fn:ident mut $($ids).+ ,` emits
`let mut <last> = <path>.$fn();`. -/
def armFnMut : List Tok → Option (Binding × List Tok)
  | t :: .kw .kmut :: rest =>
    match identFrag t with
    | some fn =>
      match afterPath rest with
      | some (s, segs, tail) =>
        some (⟨true, extractLastIdent s segs, .methodCall (s :: segs) fn⟩, tail)
      | none => none
    | none => none
  | _ => none

/-- The six specifier arms of `closure!` tried in source order (arms at
lines 253, 257, 261, 265, 269, 273); `none` when no specifier prefix
matches. -/
def parseSpec (ts : List Tok) : Option (Binding × List Tok) :=
  match armMove ts with
  | some r => some r
  | none =>
  match armMoveMut ts with
  | some r => some r
  | none =>
  match armRef ts with
  | some r => some r
  | none =>
  match armRefMut ts with
  | some r => some r
  | none =>
  match armFn ts with
  | some r => some r
  | none => armFnMut ts

/-- The two compile-time diagnostics of `__assert_closure!`. -/
inductive ExpandError
  | moveNotPermitted
  | notAClosure (ts : List Tok)
deriving DecidableEq

/-- Printable text of a token, as `stringify!` renders it. -/
def tokText : Tok → String
  | .kw .kmove => "move"
  | .kw .kmut => "mut"
  | .kw .kref => "ref"
  | .kw .klet => "let"
  | .ident s => s
  | .punct .comma => ","
  | .punct .dot => "."
  | .punct .pipe => "|"
  | .punct .orOr => "||"
  | .punct .eq => "="
  | .punct .semi => ";"
  | .punct .braceL => "\x7b"
  | .punct .braceR => "\x7d"
  | .punct .amp => "&"
  | .punct .parenL => "("
  | .punct .parenR => ")"
  | .other s => s

/-- `stringify!($($any)*)`: the tokens, space-separated. -/
def stringifyToks (ts : List Tok) : String :=
  String.intercalate " " (ts.map tokText)

/-- The diagnostic text each error produces (lines 306 and 308-310). -/
def ExpandError.message : ExpandError → String
  | .moveNotPermitted => "keyword `move` not permitted here"
  | .notAClosure ts =>
    "the supplied argument is not a closure: `" ++ stringifyToks ts ++ "`"

/-- `__assert_closure!` (lines 303-312): accept any token sequence starting
with `|` or `||`; reject a leading `move` with its dedicated message; reject
anything else quoting the tokens. -/
def assertClosure : List Tok → Except ExpandError Unit
  | .pipe :: _ => .ok ()
  | .orOr :: _ => .ok ()
  | .kw .kmove :: _ => .error .moveNotPermitted
  | ts => .error (.notAClosure ts)

/-- The result of a successful expansion: the emitted bindings in order and
the tokens of the trailing closure (onto which `move` is forced). -/
structure Expanded where
  bindings : List Binding
  closureToks : List Tok
deriving DecidableEq

/-- Prepend one emitted binding to the result of expanding the tail
(the `let ...; closure!(@inner $($tail)*)` shape of arms 1-6). -/
def consBinding (b : Binding) : Except ExpandError Expanded → Except ExpandError Expanded
  | .ok e => .ok ⟨b :: e.bindings, e.closureToks⟩
  | .error er => .error er

/-- Fuel-indexed recursion of `closure!(@inner ...)`: try the specifier arms,
then the separator arm (line 277), then the closure fallback (lines
281-284).  Every recursive call strictly shrinks the token list, so fuel
`ts.length` always suffices; with fuel 0 the list is empty and the fallback
applies, exactly as in the macro. -/
def expandInnerF : Nat → List Tok → Except ExpandError Expanded
  | 0, ts => (assertClosure ts).map fun _ => ⟨[], ts⟩
  | fuel + 1, ts =>
    match parseSpec ts with
    | some (b, rest) => consBinding b (expandInnerF fuel rest)
    | none =>
      match ts with
      | .comma :: tail => expandInnerF fuel tail
      | _ => (assertClosure ts).map fun _ => ⟨[], ts⟩

/-- `closure!(@inner ...)`: left-to-right consumption of the capture list,
ending at the closure fallback. -/
def expandInner (ts : List Tok) : Except ExpandError Expanded :=
  expandInnerF ts.length ts

/-- `closure!` entry point output shape (lines 286-288 wrap the rewritten
statements in a block): bindings in order, then the closure with `move`
forced on it (line 283), wrapped in braces so the block evaluates to the
closure. -/
def renderBinding (b : Binding) : List Tok :=
  (.kw .klet :: (if b.isMut then [.kw .kmut] else [])) ++
    (identTok b.name :: .punct .eq ::
      (match b.rhs with
       | .path segs => segsToks segs
       | .refOf segs => .punct .amp :: segsToks segs
       | .refMutOf segs => .punct .amp :: .kw .kmut :: segsToks segs
       | .methodCall segs m =>
         segsToks segs ++ [.dot, identTok m, .punct .parenL, .punct .parenR]) ++
      [.punct .semi])

/-- Concatenated rendering of the emitted binding statements, in order. -/
def renderBindings : List Binding → List Tok
  | [] => []
  | b :: bs => renderBinding b ++ renderBindings bs

/-- Tokens produced by a successful expansion: the emitted block. -/
def renderExpanded (e : Expanded) : List Tok :=
  .punct .braceL :: (renderBindings e.bindings ++ .kw .kmove :: e.closureToks ++ [.punct .braceR])

/-- `closure!` as a whole: token stream in, token stream (or diagnostic) out. -/
def expand (ts : List Tok) : Except ExpandError (List Tok) :=
  (expandInner ts).map renderExpanded

/-- A compilation unit is a sequence of independent macro invocations; each
is expanded on its own (macro_rules has no cross-invocation state). -/
def expandUnit (invocations : List (List Tok)) : List (Except ExpandError (List Tok)) :=
  invocations.map expand

theorem identFrag_identTok (s : String) : identFrag (identTok s) = some s := by
  unfold identTok
  split
  · next h => subst h; rfl
  split
  · next h => subst h; rfl
  split
  · next h => subst h; rfl
  split
  · next h => subst h; rfl
  · rfl

theorem identTok_cases (s : String) :
    (s = "move" ∧ identTok s = .kw .kmove) ∨ (s = "mut" ∧ identTok s = .kw .kmut) ∨
    (s = "ref" ∧ identTok s = .kw .kref) ∨ (s = "let" ∧ identTok s = .kw .klet) ∨
    identTok s = .ident s := by
  unfold identTok
  split
  · next h => exact Or.inl ⟨h, rfl⟩
  split
  · next h => exact Or.inr (Or.inl ⟨h, rfl⟩)
  split
  · next h => exact Or.inr (Or.inr (Or.inl ⟨h, rfl⟩))
  split
  · next h => exact Or.inr (Or.inr (Or.inr (Or.inl ⟨h, rfl⟩)))
  · exact Or.inr (Or.inr (Or.inr (Or.inr rfl)))

theorem identTok_ne_dot (s : String) : identTok s ≠ Tok.dot := by
  rcases identTok_cases s with ⟨_, h⟩ | ⟨_, h⟩ | ⟨_, h⟩ | ⟨_, h⟩ | h <;> simp [h, Tok.dot]

theorem parsePathRest_not_dot (ts : List Tok) (h : ts.head? ≠ some Tok.dot) :
    parsePathRest ts = ([], ts) := by
  cases ts with
  | nil => rfl
  | cons t tl =>
    cases t with
    | punct p =>
      cases p with
      | dot => exact absurd rfl h
      | comma => rfl
      | pipe => rfl
      | orOr => rfl
      | eq => rfl
      | semi => rfl
      | braceL => rfl
      | braceR => rfl
      | amp => rfl
      | parenL => rfl
      | parenR => rfl
    | kw k => rfl
    | ident s => rfl
    | other s => rfl

theorem parsePathRest_tailToks (rest : List String) (k : List Tok) (h : k.head? ≠ some Tok.dot) :
    parsePathRest (tailToks rest ++ k) = (rest, k) := by
  induction rest with
  | nil => simpa [tailToks] using parsePathRest_not_dot k h
  | cons x xs ih => simp [tailToks, parsePathRest, identFrag_identTok, ih]

theorem parsePath_pathToks (s : String) (rest : List String) (k : List Tok)
    (h : k.head? ≠ some Tok.dot) :
    parsePath (pathToks s rest ++ k) = some (s :: rest, k) := by
  simp [pathToks, parsePath, identFrag_identTok, parsePathRest_tailToks rest k h]

theorem afterPath_pathToks (s : String) (rest : List String) (tail : List Tok) :
    afterPath (pathToks s rest ++ .comma :: tail) = some (s, rest, tail) := by
  have h : parsePath (pathToks s rest ++ Tok.comma :: tail) = some (s :: rest, Tok.comma :: tail) :=
    parsePath_pathToks s rest (Tok.comma :: tail) (by simp [Tok.comma, Tok.dot])
  simp [afterPath, h]

theorem afterPath_kmut_pathToks (s : String) (rest : List String) (tail : List Tok) :
    afterPath (.kw .kmut :: (pathToks s rest ++ .comma :: tail)) = none := by
  have h1 : parsePathRest (pathToks s rest ++ Tok.comma :: tail)
      = ([], pathToks s rest ++ Tok.comma :: tail) := by
    apply parsePathRest_not_dot
    simp [pathToks]
    exact identTok_ne_dot s
  simp only [afterPath, parsePath, identFrag, h1]
  rcases identTok_cases s with ⟨_, h⟩ | ⟨_, h⟩ | ⟨_, h⟩ | ⟨_, h⟩ | h <;>
    simp [pathToks, h]

theorem afterPath_tailToks_comma (rest : List String) (tail : List Tok) :
    afterPath (tailToks rest ++ .comma :: tail) = none := by
  cases rest with
  | nil => rfl
  | cons x xs => rfl

theorem parsePathRest_len (ts : List Tok) : (parsePathRest ts).2.length ≤ ts.length := by
  generalize hn : ts.length = n
  induction n using Nat.strong_induction_on generalizing ts with
  | _ n ih =>
    subst hn
    cases ts with
    | nil => simp [parsePathRest]
    | cons t tl =>
      cases t with
      | punct p =>
        cases p with
        | dot =>
          cases tl with
          | nil => simp [parsePathRest]
          | cons t2 r2 =>
            cases h : identFrag t2 with
            | some s =>
              have := ih r2.length (by simp; omega) r2 rfl
              simp [parsePathRest, h]
              omega
            | none => simp [parsePathRest, h]
        | comma => simp [parsePathRest]
        | pipe => simp [parsePathRest]
        | orOr => simp [parsePathRest]
        | eq => simp [parsePathRest]
        | semi => simp [parsePathRest]
        | braceL => simp [parsePathRest]
        | braceR => simp [parsePathRest]
        | amp => simp [parsePathRest]
        | parenL => simp [parsePathRest]
        | parenR => simp [parsePathRest]
      | kw k => simp [parsePathRest]
      | ident s => simp [parsePathRest]
      | other s => simp [parsePathRest]

theorem parsePath_len {ts : List Tok} {p : List String} {r : List Tok}
    (h : parsePath ts = some (p, r)) : r.length < ts.length := by
  cases ts with
  | nil => exact absurd h (by simp [parsePath])
  | cons t tl =>
    cases hf : identFrag t with
    | some s =>
      simp [parsePath, hf] at h
      have := parsePathRest_len tl
      simp [← h.2]
      omega
    | none => simp [parsePath, hf] at h

theorem afterPath_some_len {ts : List Tok} {s : String} {segs : List String} {tail : List Tok}
    (h : afterPath ts = some (s, segs, tail)) : tail.length < ts.length := by
  unfold afterPath at h
  split at h
  · next s2 segs2 tail2 heq =>
    have hl := parsePath_len heq
    simp at h
    obtain ⟨h1, h2, h3⟩ := h
    subst h3
    simp at hl
    omega
  · exact absurd h (by simp)

theorem armMove_len {ts rest : List Tok} {b : Binding}
    (h : armMove ts = some (b, rest)) : rest.length < ts.length := by
  unfold armMove at h
  split at h
  · next l =>
    split at h
    · next s segs tail heq =>
      simp at h
      have := afterPath_some_len heq
      simp [← h.2]
      omega
    · exact absurd h (by simp)
  · exact absurd h (by simp)

theorem armMoveMut_len {ts rest : List Tok} {b : Binding}
    (h : armMoveMut ts = some (b, rest)) : rest.length < ts.length := by
  unfold armMoveMut at h
  split at h
  · next l =>
    split at h
    · next s segs tail heq =>
      simp at h
      have := afterPath_some_len heq
      simp [← h.2]
      omega
    · exact absurd h (by simp)
  · exact absurd h (by simp)

theorem armRef_len {ts rest : List Tok} {b : Binding}
    (h : armRef ts = some (b, rest)) : rest.length < ts.length := by
  unfold armRef at h
  split at h
  · next l =>
    split at h
    · next s segs tail heq =>
      simp at h
      have := afterPath_some_len heq
      simp [← h.2]
      omega
    · exact absurd h (by simp)
  · exact absurd h (by simp)

theorem armRefMut_len {ts rest : List Tok} {b : Binding}
    (h : armRefMut ts = some (b, rest)) : rest.length < ts.length := by
  unfold armRefMut at h
  split at h
  · next l =>
    split at h
    · next s segs tail heq =>
      simp at h
      have := afterPath_some_len heq
      simp [← h.2]
      omega
    · exact absurd h (by simp)
  · exact absurd h (by simp)

theorem armFn_len {ts rest : List Tok} {b : Binding}
    (h : armFn ts = some (b, rest)) : rest.length < ts.length := by
  unfold armFn at h
  split at h
  · next t l =>
    split at h
    · next fn hfn =>
      split at h
      · next s segs tail heq =>
        simp at h
        have := afterPath_some_len heq
        simp [← h.2]
        omega
      · exact absurd h (by simp)
    · exact absurd h (by simp)
  · exact absurd h (by simp)

theorem armFnMut_len {ts rest : List Tok} {b : Binding}
    (h : armFnMut ts = some (b, rest)) : rest.length < ts.length := by
  unfold armFnMut at h
  split at h
  · next t l =>
    split at h
    · next fn hfn =>
      split at h
      · next s segs tail heq =>
        simp at h
        have := afterPath_some_len heq
        simp [← h.2]
        omega
      · exact absurd h (by simp)
    · exact absurd h (by simp)
  · exact absurd h (by simp)

theorem parseSpec_length {ts rest : List Tok} {b : Binding}
    (h : parseSpec ts = some (b, rest)) : rest.length < ts.length := by
  unfold parseSpec at h
  split at h
  · next heq => cases h; exact armMove_len heq
  split at h
  · next heq => cases h; exact armMoveMut_len heq
  split at h
  · next heq => cases h; exact armRef_len heq
  split at h
  · next heq => cases h; exact armRefMut_len heq
  split at h
  · next heq => cases h; exact armFn_len heq
  · exact armFnMut_len h

theorem armFnMut_frag_none {t : Tok} (h : identFrag t = none) (tl : List Tok) :
    armFnMut (t :: tl) = none := by
  cases tl with
  | nil => rfl
  | cons t2 r =>
    cases t2 with
    | kw k =>
      cases k with
      | kmut => simp [armFnMut, h]
      | kmove => rfl
      | kref => rfl
      | klet => rfl
    | ident s => rfl
    | punct p => rfl
    | other s => rfl

theorem parseSpec_nil : parseSpec [] = none := rfl

theorem parseSpec_comma (ts : List Tok) : parseSpec (.comma :: ts) = none := by
  have h6 := armFnMut_frag_none (t := Tok.punct .comma) rfl ts
  simp [parseSpec, armMove, armMoveMut, armRef, armRefMut, armFn, identFrag, Tok.comma, h6]

theorem parseSpec_pipe (ts : List Tok) : parseSpec (.pipe :: ts) = none := by
  have h6 := armFnMut_frag_none (t := Tok.punct .pipe) rfl ts
  simp [parseSpec, armMove, armMoveMut, armRef, armRefMut, armFn, identFrag, Tok.pipe, h6]

theorem parseSpec_orOr (ts : List Tok) : parseSpec (.orOr :: ts) = none := by
  have h6 := armFnMut_frag_none (t := Tok.punct .orOr) rfl ts
  simp [parseSpec, armMove, armMoveMut, armRef, armRefMut, armFn, identFrag, Tok.orOr, h6]

theorem expandInnerF_succ_step (m : Nat) {ts rest : List Tok} {b : Binding}
    (h : parseSpec ts = some (b, rest)) :
    expandInnerF (m + 1) ts = consBinding b (expandInnerF m rest) := by
  simp [expandInnerF, h]

theorem expandInnerF_succ_comma (m : Nat) (tl : List Tok) :
    expandInnerF (m + 1) (.comma :: tl) = expandInnerF m tl := by
  simp [expandInnerF, parseSpec_comma]

theorem expandInnerF_succ_base (m : Nat) {ts : List Tok}
    (h1 : parseSpec ts = none) (h2 : ts.head? ≠ some Tok.comma) :
    expandInnerF (m + 1) ts = (assertClosure ts).map fun _ => ⟨[], ts⟩ := by
  cases ts with
  | nil => rfl
  | cons t tl =>
    simp only [expandInnerF, h1]
    cases t with
    | punct p =>
      cases p with
      | comma => exact absurd rfl h2
      | dot => rfl
      | pipe => rfl
      | orOr => rfl
      | eq => rfl
      | semi => rfl
      | braceL => rfl
      | braceR => rfl
      | amp => rfl
      | parenL => rfl
      | parenR => rfl
    | kw k => rfl
    | ident s => rfl
    | other s => rfl

theorem expandInnerF_fuel : ∀ (n : Nat) (ts : List Tok), ts.length ≤ n →
    expandInnerF n ts = expandInnerF ts.length ts := by
  intro n
  induction n using Nat.strong_induction_on with
  | _ n ih =>
    intro ts h
    cases n with
    | zero =>
      have hnil : ts = [] := List.eq_nil_of_length_eq_zero (Nat.le_zero.mp h)
      subst hnil; rfl
    | succ k =>
      cases hts : ts.length with
      | zero =>
        have hnil : ts = [] := List.eq_nil_of_length_eq_zero hts
        subst hnil; rfl
      | succ l =>
        have hlk : l + 1 ≤ k + 1 := hts ▸ h
        cases hps : parseSpec ts with
        | some br =>
          obtain ⟨b, rest⟩ := br
          have hrest : rest.length < l + 1 := hts ▸ parseSpec_length hps
          rw [expandInnerF_succ_step k hps, expandInnerF_succ_step l hps]
          congr 1
          rw [ih k (by omega) rest (by omega), ih l (by omega) rest (by omega)]
        | none =>
          by_cases hc : ts.head? = some Tok.comma
          · obtain ⟨tl, rfl⟩ : ∃ tl, ts = Tok.comma :: tl := by
              cases ts with
              | nil => simp at hc
              | cons t tl => simp at hc; exact ⟨tl, by rw [hc]⟩
            have htl : tl.length = l := by simp at hts; omega
            rw [expandInnerF_succ_comma k tl, expandInnerF_succ_comma l tl]
            rw [ih k (by omega) tl (by omega), ih l (by omega) tl (by omega)]
          · rw [expandInnerF_succ_base k hps hc, expandInnerF_succ_base l hps hc]

theorem expandInner_step {ts rest : List Tok} {b : Binding}
    (h : parseSpec ts = some (b, rest)) :
    expandInner ts = consBinding b (expandInner rest) := by
  have hl := parseSpec_length h
  unfold expandInner
  cases hts : ts.length with
  | zero =>
    have hnil : ts = [] := List.eq_nil_of_length_eq_zero hts
    subst hnil
    rw [parseSpec_nil] at h
    exact absurd h (by simp)
  | succ n =>
    rw [expandInnerF_succ_step n h]
    congr 1
    exact expandInnerF_fuel n rest (by omega)

theorem expandInner_comma (ts : List Tok) : expandInner (.comma :: ts) = expandInner ts := by
  unfold expandInner
  simp only [List.length_cons]
  rw [expandInnerF_succ_comma]

theorem expandInner_base {ts : List Tok}
    (h1 : parseSpec ts = none) (h2 : ts.head? ≠ some Tok.comma) :
    expandInner ts = (assertClosure ts).map fun _ => ⟨[], ts⟩ := by
  unfold expandInner
  cases ts with
  | nil => rfl
  | cons t tl =>
    simp only [List.length_cons]
    exact expandInnerF_succ_base tl.length h1 h2

theorem armMove_pathToks (s : String) (rest : List String) (tail : List Tok) :
    armMove (.kw .kmove :: (pathToks s rest ++ .comma :: tail)) =
      some (⟨false, extractLastIdent s rest, .path (s :: rest)⟩, tail) := by
  simp [armMove, afterPath_pathToks]

theorem parseSpec_move (s : String) (rest : List String) (tail : List Tok) :
    parseSpec (.kw .kmove :: (pathToks s rest ++ .comma :: tail)) =
      some (⟨false, extractLastIdent s rest, .path (s :: rest)⟩, tail) := by
  simp [parseSpec, armMove_pathToks]

theorem parseSpec_moveMut (s : String) (rest : List String) (tail : List Tok) :
    parseSpec (.kw .kmove :: .kw .kmut :: (pathToks s rest ++ .comma :: tail)) =
      some (⟨true, extractLastIdent s rest, .path (s :: rest)⟩, tail) := by
  simp [parseSpec, armMove, armMoveMut, afterPath_kmut_pathToks, afterPath_pathToks]

theorem parseSpec_ref (s : String) (rest : List String) (tail : List Tok) :
    parseSpec (.kw .kref :: (pathToks s rest ++ .comma :: tail)) =
      some (⟨false, extractLastIdent s rest, .refOf (s :: rest)⟩, tail) := by
  simp [parseSpec, armMove, armMoveMut, armRef, afterPath_pathToks]

theorem parseSpec_refMut (s : String) (rest : List String) (tail : List Tok) :
    parseSpec (.kw .kref :: .kw .kmut :: (pathToks s rest ++ .comma :: tail)) =
      some (⟨false, extractLastIdent s rest, .refMutOf (s :: rest)⟩, tail) := by
  simp [parseSpec, armMove, armMoveMut, armRef, armRefMut, afterPath_kmut_pathToks,
    afterPath_pathToks]

theorem parseSpec_fn (m : String) (hm1 : m ≠ "move") (hm2 : m ≠ "ref")
    (s : String) (rest : List String) (tail : List Tok) :
    parseSpec (identTok m :: (pathToks s rest ++ .comma :: tail)) =
      some (⟨false, extractLastIdent s rest, .methodCall (s :: rest) m⟩, tail) := by
  rcases identTok_cases m with ⟨he, h⟩ | ⟨he, h⟩ | ⟨he, h⟩ | ⟨he, h⟩ | h
  · exact absurd he hm1
  · subst he
    rw [h]
    simp [parseSpec, armMove, armMoveMut, armRef, armRefMut, armFn, identFrag,
      afterPath_pathToks]
  · exact absurd he hm2
  · subst he
    rw [h]
    simp [parseSpec, armMove, armMoveMut, armRef, armRefMut, armFn, identFrag,
      afterPath_pathToks]
  · rw [h]
    simp [parseSpec, armMove, armMoveMut, armRef, armRefMut, armFn, identFrag,
      afterPath_pathToks]

theorem parseSpec_fnMut (m : String) (hm1 : m ≠ "move") (hm2 : m ≠ "ref")
    (s : String) (rest : List String) (tail : List Tok) :
    parseSpec (identTok m :: .kw .kmut :: (pathToks s rest ++ .comma :: tail)) =
      some (⟨true, extractLastIdent s rest, .methodCall (s :: rest) m⟩, tail) := by
  rcases identTok_cases m with ⟨he, h⟩ | ⟨he, h⟩ | ⟨he, h⟩ | ⟨he, h⟩ | h
  · exact absurd he hm1
  · subst he
    rw [h]
    simp [parseSpec, armMove, armMoveMut, armRef, armRefMut, armFn, armFnMut, identFrag,
      afterPath_kmut_pathToks, afterPath_pathToks]
  · exact absurd he hm2
  · subst he
    rw [h]
    simp [parseSpec, armMove, armMoveMut, armRef, armRefMut, armFn, armFnMut, identFrag,
      afterPath_kmut_pathToks, afterPath_pathToks]
  · rw [h]
    simp [parseSpec, armMove, armMoveMut, armRef, armRefMut, armFn, armFnMut, identFrag,
      afterPath_kmut_pathToks, afterPath_pathToks]

theorem extractLastIdent_getLast (s : String) (l : List String) :
    extractLastIdent s l = (s :: l).getLast (List.cons_ne_nil s l) := by
  induction l generalizing s with
  | nil => rfl
  | cons x xs ih =>
    show extractLastIdent x xs = _
    rw [ih x]
    exact (List.getLast_cons (List.cons_ne_nil x xs)).symm

theorem getLast?_extract (s : String) (l : List String) :
    (s :: l).getLast? = some (extractLastIdent s l) := by
  rw [extractLastIdent_getLast]
  exact List.getLast?_eq_getLast _ _

theorem consBinding_ok {b : Binding} {x : Except ExpandError Expanded} {e : Expanded}
    (h : consBinding b x = .ok e) :
    ∃ e2, x = .ok e2 ∧ e = ⟨b :: e2.bindings, e2.closureToks⟩ := by
  cases x with
  | ok e2 =>
    simp [consBinding] at h
    exact ⟨e2, rfl, h.symm⟩
  | error er => exact absurd h (by simp [consBinding])

theorem assertClosure_ok_head {ts : List Tok} (h : assertClosure ts = .ok ()) :
    ts.head? = some Tok.pipe ∨ ts.head? = some Tok.orOr := by
  cases ts with
  | nil => exact absurd h (by simp [assertClosure])
  | cons t tl =>
    cases t with
    | punct p =>
      cases p with
      | pipe => exact Or.inl rfl
      | orOr => exact Or.inr rfl
      | comma => exact absurd h (by simp [assertClosure])
      | dot => exact absurd h (by simp [assertClosure])
      | eq => exact absurd h (by simp [assertClosure])
      | semi => exact absurd h (by simp [assertClosure])
      | braceL => exact absurd h (by simp [assertClosure])
      | braceR => exact absurd h (by simp [assertClosure])
      | amp => exact absurd h (by simp [assertClosure])
      | parenL => exact absurd h (by simp [assertClosure])
      | parenR => exact absurd h (by simp [assertClosure])
    | kw k =>
      cases k with
      | kmove => exact absurd h (by simp [assertClosure])
      | kmut => exact absurd h (by simp [assertClosure])
      | kref => exact absurd h (by simp [assertClosure])
      | klet => exact absurd h (by simp [assertClosure])
    | ident s => exact absurd h (by simp [assertClosure])
    | other s => exact absurd h (by simp [assertClosure])

theorem expandInner_closure {cl : List Tok} (h : assertClosure cl = .ok ()) :
    expandInner cl = .ok ⟨[], cl⟩ := by
  rcases assertClosure_ok_head h with hh | hh
  · obtain ⟨tl, rfl⟩ : ∃ tl, cl = Tok.pipe :: tl := by
      cases cl with
      | nil => simp at hh
      | cons t tl => simp at hh; exact ⟨tl, by rw [hh]⟩
    rw [expandInner_base (parseSpec_pipe tl) (by simp [Tok.pipe, Tok.comma]), h]
    rfl
  · obtain ⟨tl, rfl⟩ : ∃ tl, cl = Tok.orOr :: tl := by
      cases cl with
      | nil => simp at hh
      | cons t tl => simp at hh; exact ⟨tl, by rw [hh]⟩
    rw [expandInner_base (parseSpec_orOr tl) (by simp [Tok.orOr, Tok.comma]), h]
    rfl

theorem expandInner_ok_assert : ∀ (n : Nat) (ts : List Tok), ts.length ≤ n →
    ∀ e : Expanded, expandInner ts = .ok e → assertClosure e.closureToks = .ok () := by
  intro n
  induction n using Nat.strong_induction_on with
  | _ n ih =>
    intro ts hlen e he
    cases hps : parseSpec ts with
    | some br =>
      obtain ⟨b, rest⟩ := br
      rw [expandInner_step hps] at he
      obtain ⟨e2, he2, rfl⟩ := consBinding_ok he
      have hr := parseSpec_length hps
      cases n with
      | zero =>
        have hnil : ts = [] := List.eq_nil_of_length_eq_zero (Nat.le_zero.mp hlen)
        subst hnil
        rw [parseSpec_nil] at hps
        exact absurd hps (by simp)
      | succ k => exact ih k (by omega) rest (by omega) e2 he2
    | none =>
      by_cases hc : ts.head? = some Tok.comma
      · obtain ⟨tl, rfl⟩ : ∃ tl, ts = Tok.comma :: tl := by
          cases ts with
          | nil => simp at hc
          | cons t tl => simp at hc; exact ⟨tl, by rw [hc]⟩
        rw [expandInner_comma] at he
        cases n with
        | zero => simp at hlen
        | succ k => exact ih k (by omega) tl (by simpa using hlen) e he
      · rw [expandInner_base hps hc] at he
        cases ha : assertClosure ts with
        | ok u =>
          cases u
          rw [ha] at he
          simp [Except.map] at he
          rw [← he]
          exact ha
        | error er =>
          rw [ha] at he
          exact absurd he (by simp [Except.map])

theorem armMove_shape {ts rest : List Tok} {b : Binding}
    (h : armMove ts = some (b, rest)) :
    ∃ s segs, rhsSegs b.rhs = s :: segs ∧ b.name = extractLastIdent s segs := by
  unfold armMove at h
  split at h
  · split at h
    · next s segs tail heq =>
      simp only [Option.some.injEq, Prod.mk.injEq] at h
      obtain ⟨hb, -⟩ := h
      subst hb
      exact ⟨s, segs, rfl, rfl⟩
    · exact absurd h (by simp)
  · exact absurd h (by simp)

theorem armMoveMut_shape {ts rest : List Tok} {b : Binding}
    (h : armMoveMut ts = some (b, rest)) :
    ∃ s segs, rhsSegs b.rhs = s :: segs ∧ b.name = extractLastIdent s segs := by
  unfold armMoveMut at h
  split at h
  · split at h
    · next s segs tail heq =>
      simp only [Option.some.injEq, Prod.mk.injEq] at h
      obtain ⟨hb, -⟩ := h
      subst hb
      exact ⟨s, segs, rfl, rfl⟩
    · exact absurd h (by simp)
  · exact absurd h (by simp)

theorem armRef_shape {ts rest : List Tok} {b : Binding}
    (h : armRef ts = some (b, rest)) :
    ∃ s segs, rhsSegs b.rhs = s :: segs ∧ b.name = extractLastIdent s segs := by
  unfold armRef at h
  split at h
  · split at h
    · next s segs tail heq =>
      simp only [Option.some.injEq, Prod.mk.injEq] at h
      obtain ⟨hb, -⟩ := h
      subst hb
      exact ⟨s, segs, rfl, rfl⟩
    · exact absurd h (by simp)
  · exact absurd h (by simp)

theorem armRefMut_shape {ts rest : List Tok} {b : Binding}
    (h : armRefMut ts = some (b, rest)) :
    ∃ s segs, rhsSegs b.rhs = s :: segs ∧ b.name = extractLastIdent s segs := by
  unfold armRefMut at h
  split at h
  · split at h
    · next s segs tail heq =>
      simp only [Option.some.injEq, Prod.mk.injEq] at h
      obtain ⟨hb, -⟩ := h
      subst hb
      exact ⟨s, segs, rfl, rfl⟩
    · exact absurd h (by simp)
  · exact absurd h (by simp)

theorem armFn_shape {ts rest : List Tok} {b : Binding}
    (h : armFn ts = some (b, rest)) :
    ∃ s segs, rhsSegs b.rhs = s :: segs ∧ b.name = extractLastIdent s segs := by
  unfold armFn at h
  split at h
  · split at h
    · split at h
      · next s segs tail heq =>
        simp only [Option.some.injEq, Prod.mk.injEq] at h
        obtain ⟨hb, -⟩ := h
        subst hb
        exact ⟨s, segs, rfl, rfl⟩
      · exact absurd h (by simp)
    · exact absurd h (by simp)
  · exact absurd h (by simp)

theorem armFnMut_shape {ts rest : List Tok} {b : Binding}
    (h : armFnMut ts = some (b, rest)) :
    ∃ s segs, rhsSegs b.rhs = s :: segs ∧ b.name = extractLastIdent s segs := by
  unfold armFnMut at h
  split at h
  · split at h
    · split at h
      · next s segs tail heq =>
        simp only [Option.some.injEq, Prod.mk.injEq] at h
        obtain ⟨hb, -⟩ := h
        subst hb
        exact ⟨s, segs, rfl, rfl⟩
      · exact absurd h (by simp)
    · exact absurd h (by simp)
  · exact absurd h (by simp)

theorem parseSpec_shape {ts rest : List Tok} {b : Binding}
    (h : parseSpec ts = some (b, rest)) :
    ∃ s segs, rhsSegs b.rhs = s :: segs ∧ b.name = extractLastIdent s segs := by
  unfold parseSpec at h
  split at h
  · next heq => cases h; exact armMove_shape heq
  split at h
  · next heq => cases h; exact armMoveMut_shape heq
  split at h
  · next heq => cases h; exact armRef_shape heq
  split at h
  · next heq => cases h; exact armRefMut_shape heq
  split at h
  · next heq => cases h; exact armFn_shape heq
  · exact armFnMut_shape h

theorem parseSpec_barePath (s : String) (rest : List String) (tail : List Tok)
    (hs : s ≠ "move") :
    parseSpec (pathToks s rest ++ .comma :: tail) = none := by
  rcases identTok_cases s with ⟨he, h⟩ | ⟨he, h⟩ | ⟨he, h⟩ | ⟨he, h⟩ | h
  · exact absurd he hs
  all_goals
    rw [pathToks, h]
    cases rest with
    | nil =>
      simp [parseSpec, armMove, armMoveMut, armRef, armRefMut, armFn, armFnMut,
        identFrag, tailToks, afterPath, parsePath]
    | cons x xs =>
      simp [parseSpec, armMove, armMoveMut, armRef, armRefMut, armFn, armFnMut,
        identFrag, tailToks, afterPath, parsePath]

/-- C1: for every capture specifier, the expander emits exactly the binding
given by the per-variant rule table: `move path` emits an immutable binding
`name = path`; `move mut path` a mutable one; `ref path` emits `name = &path`;
`ref mut path` emits `name = &mut path`; `method path` emits
`name = path.method()`; `method mut path` a mutable binding of
`path.method()` — in each case followed by the expansion of the tail.
The method rows are stated for method names other than the keywords
`move`/`ref`, which the keyword rows capture first. -/
theorem C1_specifier_rule_table (s : String) (rest : List String) (tail : List Tok)
    (m : String) (hm1 : m ≠ "move") (hm2 : m ≠ "ref") :
    expandInner (.kw .kmove :: (pathToks s rest ++ .comma :: tail)) =
      consBinding ⟨false, extractLastIdent s rest, .path (s :: rest)⟩ (expandInner tail)
    ∧ expandInner (.kw .kmove :: .kw .kmut :: (pathToks s rest ++ .comma :: tail)) =
      consBinding ⟨true, extractLastIdent s rest, .path (s :: rest)⟩ (expandInner tail)
    ∧ expandInner (.kw .kref :: (pathToks s rest ++ .comma :: tail)) =
      consBinding ⟨false, extractLastIdent s rest, .refOf (s :: rest)⟩ (expandInner tail)
    ∧ expandInner (.kw .kref :: .kw .kmut :: (pathToks s rest ++ .comma :: tail)) =
      consBinding ⟨false, extractLastIdent s rest, .refMutOf (s :: rest)⟩ (expandInner tail)
    ∧ expandInner (identTok m :: (pathToks s rest ++ .comma :: tail)) =
      consBinding ⟨false, extractLastIdent s rest, .methodCall (s :: rest) m⟩ (expandInner tail)
    ∧ expandInner (identTok m :: .kw .kmut :: (pathToks s rest ++ .comma :: tail)) =
      consBinding ⟨true, extractLastIdent s rest, .methodCall (s :: rest) m⟩ (expandInner tail) :=
  ⟨expandInner_step (parseSpec_move s rest tail),
   expandInner_step (parseSpec_moveMut s rest tail),
   expandInner_step (parseSpec_ref s rest tail),
   expandInner_step (parseSpec_refMut s rest tail),
   expandInner_step (parseSpec_fn m hm1 hm2 s rest tail),
   expandInner_step (parseSpec_fnMut m hm1 hm2 s rest tail)⟩

/-- C1 witness: `move a.b, ||` emits the single immutable binding `b = a.b`
before the move closure. -/
theorem C1_specifier_rule_table_witness :
    expandInner [Tok.kw .kmove, Tok.ident "a", Tok.dot, Tok.ident "b", Tok.comma, Tok.orOr] =
      .ok ⟨[⟨false, "b", .path ["a", "b"]⟩], [Tok.orOr]⟩ :=
  (C1_specifier_rule_table "a" ["b"] [Tok.orOr] "clone" (by decide) (by decide)).1

/-- C2: the name bound by any accepted capture specifier is the final
identifier of its dotted path; for a path of a single segment the bound name
is that segment itself. -/
theorem C2_binds_last_path_segment {ts rest : List Tok} {b : Binding}
    (h : parseSpec ts = some (b, rest)) :
    (rhsSegs b.rhs).getLast? = some b.name ∧ ∀ x : String, extractLastIdent x [] = x := by
  refine ⟨?_, fun x => rfl⟩
  obtain ⟨s, segs, hsegs, hname⟩ := parseSpec_shape h
  rw [hsegs, hname]
  exact getLast?_extract s segs

/-- C2 witness: `ref a.b.c ,` binds the name `c`. -/
theorem C2_binds_last_path_segment_witness :
    (rhsSegs (Rhs.refOf ["a", "b", "c"])).getLast? = some "c" :=
  (@C2_binds_last_path_segment
    [Tok.kw .kref, Tok.ident "a", Tok.dot, Tok.ident "b", Tok.dot, Tok.ident "c", Tok.comma]
    [] ⟨false, "c", .refOf ["a", "b", "c"]⟩ rfl).1

/-- C3: every accepted input expands to a block holding, in order, one
binding statement per specifier, then the supplied closure with `move`
forced on it; the closure part always passes the closure-shape check, and
with zero captures the output is exactly the block `move <closure>` with no
bindings. -/
theorem C3_output_shape {ts : List Tok} {e : Expanded} (h : expandInner ts = .ok e) :
    expand ts = .ok (.punct .braceL ::
        (renderBindings e.bindings ++ .kw .kmove :: e.closureToks ++ [.punct .braceR]))
    ∧ assertClosure e.closureToks = .ok ()
    ∧ ∀ cl : List Tok, assertClosure cl = .ok () →
        expandInner cl = .ok ⟨[], cl⟩ ∧
        expand cl = .ok (.punct .braceL :: .kw .kmove :: (cl ++ [.punct .braceR])) := by
  refine ⟨?_, ?_, ?_⟩
  · simp [expand, h, renderExpanded, Except.map]
  · exact expandInner_ok_assert ts.length ts le_rfl e h
  · intro cl hcl
    refine ⟨expandInner_closure hcl, ?_⟩
    simp [expand, expandInner_closure hcl, renderExpanded, renderBindings, Except.map]

/-- C3 witness: the zero-capture input `||` expands to exactly
`{ move || }`, and its closure part passes the shape check. -/
theorem C3_output_shape_witness :
    expand [Tok.orOr] = .ok [Tok.punct .braceL, Tok.kw .kmove, Tok.orOr, Tok.punct .braceR]
    ∧ assertClosure [Tok.orOr] = .ok () :=
  ⟨(@C3_output_shape [Tok.orOr] ⟨[], [Tok.orOr]⟩ rfl).1,
   (@C3_output_shape [Tok.orOr] ⟨[], [Tok.orOr]⟩ rfl).2.1⟩

/-- C4: when the tokens remaining after the capture list begin with the
keyword `move` (and no specifier arm consumes them), expansion fails with
the diagnostic text `keyword move not permitted here` (backquoted in the
source), and no expanded closure is produced (the result is an error, also
when a capture list precedes the offending tokens). -/
theorem C4_move_keyword_rejected {ts : List Tok}
    (h1 : ts.head? = some (Tok.kw .kmove)) (h2 : parseSpec ts = none) :
    expandInner ts = .error .moveNotPermitted
    ∧ ExpandError.message .moveNotPermitted = "keyword `move` not permitted here"
    ∧ expandInner (.kw .kref :: (pathToks "x" [] ++ .comma :: ts)) =
        .error .moveNotPermitted := by
  have hmain : expandInner ts = .error .moveNotPermitted := by
    obtain ⟨tl, rfl⟩ : ∃ tl, ts = Tok.kw .kmove :: tl := by
      cases ts with
      | nil => simp at h1
      | cons t tl =>
        simp at h1
        exact ⟨tl, by rw [h1]⟩
    rw [expandInner_base h2 (by simp [Tok.comma])]
    rfl
  refine ⟨hmain, rfl, ?_⟩
  rw [expandInner_step (parseSpec_ref "x" [] ts), hmain]
  rfl

/-- C4 witness: `move ||` fails with the move diagnostic. -/
theorem C4_move_keyword_rejected_witness :
    expandInner [Tok.kw .kmove, Tok.orOr] = .error .moveNotPermitted :=
  (@C4_move_keyword_rejected [Tok.kw .kmove, Tok.orOr] rfl rfl).1

/-- C5: when the tokens remaining after the capture list neither begin with
`move` nor look like a closure (and are not a separator), expansion fails
with the diagnostic that quotes the offending token sequence, producing no
expanded closure. -/
theorem C5_non_closure_rejected {ts : List Tok}
    (h1 : parseSpec ts = none) (h2 : ts.head? ≠ some Tok.comma)
    (h3 : ts.head? ≠ some Tok.pipe) (h4 : ts.head? ≠ some Tok.orOr)
    (h5 : ts.head? ≠ some (Tok.kw .kmove)) :
    expandInner ts = .error (.notAClosure ts)
    ∧ (ExpandError.notAClosure ts).message =
        "the supplied argument is not a closure: `" ++ stringifyToks ts ++ "`" := by
  refine ⟨?_, rfl⟩
  rw [expandInner_base h1 h2]
  have ha : assertClosure ts = .error (.notAClosure ts) := by
    cases ts with
    | nil => rfl
    | cons t tl =>
      cases t with
      | punct p =>
        cases p with
        | comma => exact absurd rfl h2
        | pipe => exact absurd rfl h3
        | orOr => exact absurd rfl h4
        | dot => rfl
        | eq => rfl
        | semi => rfl
        | braceL => rfl
        | braceR => rfl
        | amp => rfl
        | parenL => rfl
        | parenR => rfl
      | kw k =>
        cases k with
        | kmove => exact absurd rfl h5
        | kmut => rfl
        | kref => rfl
        | klet => rfl
      | ident s => rfl
      | other s => rfl
  rw [ha]
  rfl

/-- C5 witness: the non-closure remainder `y 5` fails with a diagnostic
quoting `y 5`. -/
theorem C5_non_closure_rejected_witness :
    expandInner [Tok.ident "y", Tok.other "5"] =
      .error (.notAClosure [Tok.ident "y", Tok.other "5"])
    ∧ (ExpandError.notAClosure [Tok.ident "y", Tok.other "5"]).message =
        "the supplied argument is not a closure: `y 5`" :=
  @C5_non_closure_rejected [Tok.ident "y", Tok.other "5"] rfl
    (by decide) (by decide) (by decide) (by decide)

/-- C6 counterexample: the bare-path capture list `x, || x` is not a valid
input — no specifier arm matches a bare path, so the tokens from `x` onward
reach the closure check and expansion fails with the not-a-closure
diagnostic instead of emitting a `move`-style binding. -/
theorem C6_bare_path_counterexample :
    expand [Tok.ident "x", Tok.comma, Tok.orOr, Tok.ident "x"] =
      .error (.notAClosure [Tok.ident "x", Tok.comma, Tok.orOr, Tok.ident "x"]) := by
  rfl

/-- C6 amended: a capture specifier consisting of a bare path with no
leading keyword is rejected: it matches no specifier arm, so the bare path
and everything after it are treated as the closure position and expansion
fails with the not-a-closure diagnostic (default `move` semantics applies
only to variables left out of the capture list, via the `move` forced on
the emitted closure).  Stated for any bare path whose head segment is not
the keyword `move` (with that keyword the same input is a `move` specifier
or hits the move diagnostic). -/
theorem C6_bare_path_rejected (s : String) (rest : List String) (tail : List Tok)
    (hs : s ≠ "move") :
    expandInner (pathToks s rest ++ .comma :: tail) =
      .error (.notAClosure (pathToks s rest ++ .comma :: tail)) := by
  have h1 := parseSpec_barePath s rest tail hs
  have h2 : (pathToks s rest ++ Tok.comma :: tail).head? ≠ some Tok.comma := by
    rcases identTok_cases s with ⟨-, h⟩ | ⟨-, h⟩ | ⟨-, h⟩ | ⟨-, h⟩ | h <;>
      simp [pathToks, h, Tok.comma]
  rw [expandInner_base h1 h2]
  have ha : assertClosure (pathToks s rest ++ Tok.comma :: tail) =
      .error (.notAClosure (pathToks s rest ++ Tok.comma :: tail)) := by
    rcases identTok_cases s with ⟨he, h⟩ | ⟨-, h⟩ | ⟨-, h⟩ | ⟨-, h⟩ | h
    · exact absurd he hs
    all_goals simp [pathToks, h, assertClosure]
  rw [ha]
  rfl

/-- C6 amended witness: the bare path `x ,` followed by `||` fails with the
not-a-closure diagnostic. -/
theorem C6_bare_path_rejected_witness :
    expandInner [Tok.ident "x", Tok.comma, Tok.orOr] =
      .error (.notAClosure [Tok.ident "x", Tok.comma, Tok.orOr]) :=
  C6_bare_path_rejected "x" [] [Tok.orOr] (by decide)

/-- C7 counterexample: an input whose capture list begins with a leading
separator is not rejected — `, || x` expands successfully to the move
closure. -/
theorem C7_leading_separator_counterexample :
    expand [Tok.comma, Tok.orOr, Tok.ident "x"] =
      .ok [Tok.punct .braceL, Tok.kw .kmove, Tok.orOr, Tok.ident "x", Tok.punct .braceR] := by
  rfl

/-- C7 amended: a leading separator before the first capture specifier is
consumed and ignored by the separator arm (line 277); expansion proceeds
exactly as if the comma were absent. -/
theorem C7_leading_separator_skipped (ts : List Tok) :
    expandInner (.comma :: ts) = expandInner ts ∧ expand (.comma :: ts) = expand ts :=
  ⟨expandInner_comma ts, by simp [expand, expandInner_comma]⟩

/-- C8: the expander consumes the capture list recursively left to right:
the keyword-qualified forms are matched before the generic
identifier-transform fallback (so `move x` and `ref x` yield `path`/`refOf`
bindings, never method-transform ones), each consumed specifier prepends
its binding to the expansion of the remainder (bindings are emitted in
capture-list order), and once no specifier or separator prefix matches the
remainder is handed to the closure-shape check. -/
theorem C8_algorithm_structure (s : String) (rest : List String) (tail : List Tok) :
    ((parseSpec (.kw .kmove :: (pathToks s rest ++ .comma :: tail))).map (fun p => p.1.rhs) =
        some (.path (s :: rest))
      ∧ (parseSpec (.kw .kref :: (pathToks s rest ++ .comma :: tail))).map (fun p => p.1.rhs) =
        some (.refOf (s :: rest)))
    ∧ (∀ (ts rest2 : List Tok) (b : Binding) (e : Expanded),
        parseSpec ts = some (b, rest2) → expandInner rest2 = .ok e →
        expandInner ts = .ok ⟨b :: e.bindings, e.closureToks⟩)
    ∧ (∀ us : List Tok, parseSpec us = none → us.head? ≠ some Tok.comma →
        expandInner us = (assertClosure us).map fun _ => ⟨[], us⟩) := by
  refine ⟨⟨?_, ?_⟩, ?_, ?_⟩
  · rw [parseSpec_move]; rfl
  · rw [parseSpec_ref]; rfl
  · intro ts rest2 b e hp he
    rw [expandInner_step hp, he]
    rfl
  · intro us hu1 hu2
    exact expandInner_base hu1 hu2

/-- C8 witness: consuming `ref x ,` prepends the `&x` binding to the
expansion of the remaining closure `||`. -/
theorem C8_algorithm_structure_witness :
    expandInner [Tok.kw .kref, Tok.ident "x", Tok.comma, Tok.orOr] =
      .ok ⟨[⟨false, "x", .refOf ["x"]⟩], [Tok.orOr]⟩ :=
  (C8_algorithm_structure "x" [] []).2.1
    [Tok.kw .kref, Tok.ident "x", Tok.comma, Tok.orOr] [Tok.orOr]
    ⟨false, "x", .refOf ["x"]⟩ ⟨[], [Tok.orOr]⟩ rfl rfl

/-- C9: the closure-shape validation only inspects whether the remaining
tokens begin with a vertical-bar token: any sequence starting with `|` or
`||` is accepted and becomes the closure part unchanged, whatever follows
the bar. -/
theorem C9_closure_check_head_only (ts : List Tok) :
    assertClosure (.pipe :: ts) = .ok () ∧ assertClosure (.orOr :: ts) = .ok ()
    ∧ expandInner (.pipe :: ts) = .ok ⟨[], .pipe :: ts⟩
    ∧ expandInner (.orOr :: ts) = .ok ⟨[], .orOr :: ts⟩ := by
  refine ⟨rfl, rfl, ?_, ?_⟩
  · rw [expandInner_base (parseSpec_pipe ts) (by simp [Tok.pipe, Tok.comma])]
    rfl
  · rw [expandInner_base (parseSpec_orOr ts) (by simp [Tok.orOr, Tok.comma])]
    rfl

/-- C10: expansion is deterministic and stateless across a compilation
unit: the output at an invocation's position depends only on that
invocation's own tokens, for any two surrounding sequences of other
invocations. -/
theorem C10_expansion_deterministic_stateless
    (pre post pre2 post2 : List (List Tok)) (ts : List Tok) :
    (expandUnit (pre ++ ts :: post))[pre.length]? = some (expand ts)
    ∧ (expandUnit (pre2 ++ ts :: post2))[pre2.length]? = some (expand ts) := by
  have h : ∀ (a b : List (List Tok)),
      (expandUnit (a ++ ts :: b))[a.length]? = some (expand ts) := by
    intro a b
    rw [expandUnit, List.getElem?_map, List.getElem?_append_right (le_refl _)]
    simp
  exact ⟨h pre post, h pre2 post2⟩
